import Mathlib

/-!
# SWBF2Hierarchy: hierarchy crawler, graph builder and file discovery

A shallow embedding of `src/SWBF2Hierarchy.cpp`.

* `GetRootClassName`, `CrawlNodesRecursive` (lines 96-119) walk the chain of
  direct base references of an entity class.
* `AddNodeRecursive` (lines 121-169) adds a class and its base chain to the
  graph of one root class.
* The two `GetFiles` overloads (lines 35-82) expand input paths to a list of
  paths.

The external libraries (entity classes of LibSWBF2, the cgraph graph, the
`std::filesystem` tree) are modelled by small data types whose accessors are the
ones the source calls.
-/

namespace SWBF2Hierarchy

/-! ## Entity classes -/

/-- Modelled from the spec: the type `LibSWBF2::Wrappers::EntityClass`, which the
source only consumes through `GetTypeName()`, `GetBaseName()` and `GetBase()`.
A class has a type name, a textual base name (possibly empty) and either no
direct base reference (`root`, `GetBase() == nullptr`) or a direct base reference
(`derived`). Being an inductive type, every chain of direct base references is
finite and acyclic, which is the invariant the spec assumes of the data source. -/
inductive EntityClass where
  | root (typeName baseName : String) : EntityClass
  | derived (typeName baseName : String) (base : EntityClass) : EntityClass
deriving DecidableEq, Repr

namespace EntityClass

/-- The accessor `ec.GetTypeName()`. -/
def GetTypeName : EntityClass → String
  | root typeName _ => typeName
  | derived typeName _ _ => typeName

/-- The accessor `ec.GetBaseName()`. -/
def GetBaseName : EntityClass → String
  | root _ baseName => baseName
  | derived _ baseName _ => baseName

/-- The accessor `ec.GetBase()`; `none` stands for `nullptr`. -/
def GetBase : EntityClass → Option EntityClass
  | root _ _ => none
  | derived _ _ base => some base

/-- The classes reached from `ec` by repeatedly following direct base references,
`ec` first and the class without a direct base reference last. -/
def chain : EntityClass → List EntityClass
  | root typeName baseName => [root typeName baseName]
  | derived typeName baseName base => derived typeName baseName base :: chain base

end EntityClass

open EntityClass

/-- Source `GetRootClassName` (lines 96-105): follow the direct base reference while there
is one, then return the textual base name. -/
def GetRootClassName : EntityClass → String
  | .derived _ _ base => GetRootClassName base
  | .root _ baseName => baseName

/-- Source `CrawlNodesRecursive` (lines 107-119) with the global `RootClasses` set passed
in and returned. The first branch needs a direct base reference *and* a non-empty
base name; the second only a non-empty base name; otherwise nothing happens. -/
def CrawlNodesRecursive : EntityClass → Finset String → Finset String
  | .derived _ baseName base, RootClasses =>
      if baseName ≠ "" then CrawlNodesRecursive base RootClasses
      else RootClasses
  | .root _ baseName, RootClasses =>
      if baseName ≠ "" then insert baseName RootClasses
      else RootClasses

/-! ## The graph library and the node map -/

/-- Modelled from the spec: a node handle `Agnode_t*` of the external graph
library. Within one graph a node is identified by its name, so the handle is
modelled by the name; `nullptr` is `none` in `Option Agnode`. -/
abbrev Agnode := String

/-- Modelled from the spec: the graph `Agraph_t` of the external graph library as
`main` opens it (directed, strict): a set of nodes identified by name and a set
of directed edges (tail, head), hence without parallel edges. -/
structure Agraph where
  nodes : Finset String
  edges : Finset (Agnode × Agnode)

instance : DecidableEq Agraph := fun a b =>
  decidable_of_iff (a.nodes = b.nodes ∧ a.edges = b.edges)
    ⟨fun h => by cases a; cases b; cases h.1; cases h.2; rfl, fun h => by rw [h]; exact ⟨rfl, rfl⟩⟩

/-- The graph right after `agopen`: no node, no edge. -/
def Agraph.empty : Agraph := ⟨∅, ∅⟩

/-- Modelled from the spec: the library call `agnode(graph, name, 1)`, which finds
the node of that name or creates it, and returns its handle. -/
def agnode (graph : Agraph) (name : String) : Agraph × Agnode :=
  ({ graph with nodes := insert name graph.nodes }, name)

/-- Modelled from the spec: the library call `agedge(graph, tail, head, nullptr, 1)`
on a strict directed graph, which finds the edge tail -> head or creates it. -/
def agedge (graph : Agraph) (tail head : Agnode) : Agraph :=
  { graph with edges := insert (tail, head) graph.edges }

/-- The map `std::map<std::string, Agnode_t*>` as an association list; `emplace`
never adds a key that is already there. -/
abbrev NodeMap := List (String × Agnode)

/-- The lookup `classNodes.find(key)`; `none` stands for `classNodes.end()`. -/
def NodeMap.find : NodeMap → String → Option Agnode
  | [], _ => none
  | (k, v) :: rest, key => if k = key then some v else NodeMap.find rest key

/-- The insertion `classNodes.emplace(key, value)`: nothing happens when the key is
already present. -/
def NodeMap.emplace (classNodes : NodeMap) (key : String) (value : Agnode) : NodeMap :=
  match classNodes.find key with
  | some _ => classNodes
  | none => classNodes ++ [(key, value)]

/-- Source `AddNodeRecursive` (lines 121-169). The graph and the node map, which the
source mutates in place, are passed in and returned next to the result; the
log line is not modelled. The two equations are the two outcomes of
`ec.GetBase()`; lines 123-136 are the same in both. -/
def AddNodeRecursive (rootClassName : String) :
    EntityClass → Agraph → NodeMap → Option Agnode × Agraph × NodeMap
  | .derived name baseName base, graph, classNodes =>
    match classNodes.find name with
    | some found => (some found, graph, classNodes)
    | none =>
      if GetRootClassName (.derived name baseName base) ≠ rootClassName then
        (none, graph, classNodes)
      else
        let (graph1, node) := agnode graph name
        match AddNodeRecursive rootClassName base graph1 classNodes with
        | (some baseNode, graph2, classNodes2) =>
          (some node, agedge graph2 baseNode node, classNodes2)
        | (none, graph2, classNodes2) => (some node, graph2, classNodes2)
  | .root name baseName, graph, classNodes =>
    match classNodes.find name with
    | some found => (some found, graph, classNodes)
    | none =>
      if GetRootClassName (.root name baseName) ≠ rootClassName then
        (none, graph, classNodes)
      else
        let (graph1, node) := agnode graph name
        if baseName ≠ "" then
          let (graph2, baseNode) :=
            match classNodes.find baseName with
            | some found => (graph1, found)
            | none => agnode graph1 baseName
          (some node, agedge graph2 baseNode node,
            classNodes.emplace baseName baseNode)
        else
          (some node, graph1, classNodes)

/-- The per-root loop of `main` (lines 267-272): `AddNodeRecursive` for every entity
class in turn, on the graph and node map left by the previous calls. -/
def addAll (rootClassName : String) :
    List EntityClass → Agraph → NodeMap → Agraph × NodeMap
  | [], graph, classNodes => (graph, classNodes)
  | ec :: rest, graph, classNodes =>
    let (_, graph1, classNodes1) := AddNodeRecursive rootClassName ec graph classNodes
    addAll rootClassName rest graph1 classNodes1

/-- The graph and node map `main` builds for one root: from the empty graph and
the empty map, `AddNodeRecursive` for every class of the list. -/
def buildGraph (rootClassName : String) (entityClasses : List EntityClass) :
    Agraph × NodeMap :=
  addAll rootClassName entityClasses Agraph.empty []

/-- One graph lies within another when all its nodes and all its edges are nodes
and edges of the other. -/
def Agraph.le (g G : Agraph) : Prop :=
  g.nodes ⊆ G.nodes ∧ g.edges ⊆ G.edges

/-- The shape of the node map during the construction of the graph of root `R`:
empty, or the single entry for `R`, mapped to the node named `R`, which then is
a node of the graph. -/
def MapInv (R : String) (g : Agraph) (m : NodeMap) : Prop :=
  m = [] ∨ (m = [(R, R)] ∧ R ∈ g.nodes)

/-- Every node is named `R` or after a class of `U` that resolves to `R`. -/
def NodesSound (R : String) (U : EntityClass → Prop) (g : Agraph) : Prop :=
  ∀ n ∈ g.nodes, n = R ∨ ∃ c, U c ∧ c.GetTypeName = n ∧ GetRootClassName c = R

/-- Every edge runs to the node of a class of `U` that resolves to `R`, from the
node of its direct base or, when it has none, from the node named `R`. -/
def EdgesSound (R : String) (U : EntityClass → Prop) (g : Agraph) : Prop :=
  ∀ a b, (a, b) ∈ g.edges → ∃ c, U c ∧ c.GetTypeName = b ∧ GetRootClassName c = R ∧
    ((∃ p, c.GetBase = some p ∧ a = p.GetTypeName) ∨ (c.GetBase = none ∧ a = R))

/-- The invariant of the per-root loop. -/
def Inv (R : String) (U : EntityClass → Prop) (g : Agraph) (m : NodeMap) : Prop :=
  MapInv R g m ∧ NodesSound R U g ∧ EdgesSound R U g

/-! ## The file system and file discovery -/

/-- A path `fs::path`, as the sequence of its components: names, `"."`, `".."`, the
component `"/"` in first place for an absolute path, and the empty component
`""` in last place for a path that ends in a separator. The empty list is the
empty path. -/
abbrev Path := List String

/-- A place in the file tree: the names from the root directory down to an entry;
the empty list is the root directory itself. -/
abbrev Location := List String

/-- The part of a file name from its rightmost period on, if it has a period. -/
def lastDotSuffix : List Char → Option (List Char)
  | [] => none
  | c :: cs =>
    match lastDotSuffix cs with
    | some s => some s
    | none => if c = '.' then some (c :: cs) else none

/-- Modelled from the spec: the library call `path.extension()` on a path whose
last component is `filename`: the part of the file name from its rightmost
period on; a period at the very start of the name does not count, and the
special name of two periods has no extension. -/
def extension (filename : String) : String :=
  match filename.data with
  | [] => ""
  | _ :: cs =>
    if filename = ".." then ""
    else
      match lastDotSuffix cs with
      | some s => String.mk s
      | none => ""

/-- Modelled from the spec: the library operator `Directory / name`, as
`fs::directory_iterator` forms the path of an entry: the name is appended, and
takes the place of the empty last component when `Directory` ends in a
separator. -/
def pathAppend (Directory : Path) (name : String) : Path :=
  (if Directory.getLast? = some "" then Directory.dropLast else Directory) ++ [name]

/-- Modelled from the spec: what `std::filesystem` shows of the file system, a tree
of named entries without links: regular files, directories with their entries
in the order of `fs::directory_iterator`, and entries that are neither. -/
inductive Entry where
  | file (name : String) : Entry
  | other (name : String) : Entry
  | dir (name : String) (children : List Entry) : Entry
deriving Repr

/-- The name of an entry in its directory. -/
def Entry.name : Entry → String
  | .file n => n
  | .other n => n
  | .dir n _ => n

/-- The test `p.is_directory()`. -/
def Entry.is_directory : Entry → Bool
  | .dir _ _ => true
  | _ => false

/-- The test `fs::is_regular_file`. -/
def Entry.is_regular_file : Entry → Bool
  | .file _ => true
  | _ => false

/-- The entry of the given name among the entries of a directory. -/
def findEntry (n : String) : List Entry → Option Entry
  | [] => none
  | e :: rest => if e.name = n then some e else findEntry n rest

/-- The state of the file system: the root directory (an `Entry.dir`, whose own
name plays no part) and the location of the working directory. -/
structure FileSystem where
  root : Entry
  cwd : Location

/-- The entry at a location below entry `e`. -/
def entryAt : Entry → Location → Option Entry
  | e, [] => some e
  | .dir _ children, n :: rest =>
    match findEntry n children with
    | some c => entryAt c rest
    | none => none
  | .file _, _ :: _ => none
  | .other _, _ :: _ => none

/-- Path resolution from a location, component by component: every step needs the
place reached so far to be a directory; `""` and `"."` stay there, `".."` goes
to the parent (the root is its own parent), a name goes to the entry of that
name. `none` when a step fails. -/
def walk (root : Entry) : Location → List String → Option Location
  | loc, [] => some loc
  | loc, c :: rest =>
    match entryAt root loc with
    | some (.dir _ children) =>
      if c = "" ∨ c = "." then walk root loc rest
      else if c = ".." then walk root loc.dropLast rest
      else
        match findEntry c children with
        | some _ => walk root (loc ++ [c]) rest
        | none => none
    | _ => none

/-- The location a path leads to: from the root directory for an absolute path,
from the working directory otherwise; `none` when nothing is there (then
`fs::exists` is false), as for the empty path. -/
def resolve (fs : FileSystem) : Path → Option Location
  | [] => none
  | c :: rest => if c = "/" then walk fs.root [] rest else walk fs.root fs.cwd (c :: rest)

/-- The entry a path leads to; `none` when `fs::exists` is false. -/
def status (fs : FileSystem) (p : Path) : Option Entry :=
  match resolve fs p with
  | some loc => entryAt fs.root loc
  | none => none

mutual
/-- The body of the loop of the directory overload of `GetFiles` (lines 43-55) for
the entry `p` of `Directory`: the path of `p` when its extension is the wanted
one, then, in recursive mode and for a directory, the files of `p`. -/
def GetFilesEntry (Extension : String) (recursive : Bool) (Directory : Path) :
    Entry → List Path
  | .file n => if extension n = Extension then [pathAppend Directory n] else []
  | .other n => if extension n = Extension then [pathAppend Directory n] else []
  | .dir n children =>
    (if extension n = Extension then [pathAppend Directory n] else []) ++
      (if recursive then
        GetFilesEntries Extension recursive (pathAppend Directory n) children
       else [])
/-- The loop of the directory overload of `GetFiles` over the entries of
`Directory`. -/
def GetFilesEntries (Extension : String) (recursive : Bool) (Directory : Path) :
    List Entry → List Path
  | [] => []
  | p :: rest =>
    GetFilesEntry Extension recursive Directory p ++
      GetFilesEntries Extension recursive Directory rest
end

/-- Source overload `GetFiles(const fs::path&, ...)` (lines 35-57) in the file system
`fs`: no file when `Directory` does not exist; `none` when it exists and is not
a directory, where `fs::directory_iterator` throws. -/
def GetFilesDirectory (fs : FileSystem) (Directory : Path) (Extension : String)
    (recursive : Bool) : Option (List Path) :=
  match status fs Directory with
  | none => some []
  | some (.dir _ children) => some (GetFilesEntries Extension recursive Directory children)
  | some _ => none

/-- A name an entry can have: not empty, not `"."`, `".."` or `"/"`. -/
def plainName (n : String) : Bool :=
  decide (n ≠ "") && decide (n ≠ ".") && decide (n ≠ "..") && decide (n ≠ "/")

mutual
/-- In `e` and below, every directory has entries of plain names, no two of the
same name. -/
def Entry.wellFormed : Entry → Bool
  | .file _ => true
  | .other _ => true
  | .dir _ children =>
    decide ((children.map Entry.name).Nodup) && children.all (fun c => plainName c.name) &&
      wellFormedList children
/-- Every entry of the list is well formed. -/
def wellFormedList : List Entry → Bool
  | [] => true
  | e :: rest => e.wellFormed && wellFormedList rest
end

/-- A file system whose directories have entries of plain names, no two of the same
name in one directory. -/
def FileSystem.wellFormed (fs : FileSystem) : Bool :=
  fs.root.wellFormed

mutual
/-- The locations the scan of a directory at `loc` visits for its entry `e`: the
entry, and in recursive mode everything below it. -/
def visitEntry (recursive : Bool) (loc : Location) : Entry → List Location
  | .file n => [loc ++ [n]]
  | .other n => [loc ++ [n]]
  | .dir n children =>
    (loc ++ [n]) :: (if recursive then visitEntries recursive (loc ++ [n]) children else [])
/-- The locations the scan of a directory at `loc` with the given entries visits. -/
def visitEntries (recursive : Bool) (loc : Location) : List Entry → List Location
  | [] => []
  | e :: rest => visitEntry recursive loc e ++ visitEntries recursive loc rest
end

theorem chain_ne_nil (ec : EntityClass) : chain ec ≠ [] := by
  cases ec <;> simp [chain]

theorem self_mem_chain (ec : EntityClass) : ec ∈ chain ec := by
  cases ec <;> simp [chain]

theorem chain_head (ec : EntityClass) : (chain ec).head? = some ec := by
  cases ec <;> simp [chain]

theorem chain_linked (ec : EntityClass) :
    List.Chain' (fun c b => c.GetBase = some b) (chain ec) := by
  induction ec with
  | root t b => simp [chain]
  | derived t b base ih =>
    rw [chain, List.chain'_cons']
    refine ⟨?_, ih⟩
    intro y hy
    rw [chain_head] at hy
    cases hy
    rfl

theorem chain_getLast (ec : EntityClass) :
    ∃ t, (chain ec).getLast? = some t ∧ t.GetBase = none ∧
      GetRootClassName ec = t.GetBaseName := by
  induction ec with
  | root t b => exact ⟨.root t b, by simp [chain], rfl, rfl⟩
  | derived t b base ih =>
    obtain ⟨u, hu, hb, hr⟩ := ih
    refine ⟨u, ?_, hb, ?_⟩
    · have hne := chain_ne_nil base
      rw [chain]
      cases hc : chain base with
      | nil => exact absurd hc hne
      | cons x xs =>
        rw [hc] at hu
        rw [List.getLast?_cons_cons]
        exact hu
    · simpa [GetRootClassName] using hr

/-! ## Claims on the hierarchy crawler -/

/-- C1: the chain of direct base references of `ec` starts at `ec`, each class on
it is followed by its direct base, it ends in a class `t` without a direct base
reference, and `GetRootClassName ec` is the textual base name of `t` (whatever
it is, the empty string included). In particular for the chain C -> B -> A
where A has no direct base and textual base name "Root" the result is "Root". -/
theorem GetRootClassName_eq_terminal_baseName (ec : EntityClass) :
    (chain ec).head? = some ec ∧
    List.Chain' (fun c b => c.GetBase = some b) (chain ec) ∧
    (∃ t, (chain ec).getLast? = some t ∧ t.GetBase = none ∧
      GetRootClassName ec = t.GetBaseName) ∧
    (∀ a b c bb bc : String,
      GetRootClassName (.derived c bc (.derived b bb (.root a "Root"))) = "Root") :=
  ⟨chain_head ec, chain_linked ec, chain_getLast ec, fun _ _ _ _ _ => rfl⟩


/-! ## Lemmas on `CrawlNodesRecursive` -/

theorem CrawlNodesRecursive_cases (ec : EntityClass) (S : Finset String) :
    CrawlNodesRecursive ec S = S ∨
      (GetRootClassName ec ≠ "" ∧
        CrawlNodesRecursive ec S = insert (GetRootClassName ec) S) := by
  induction ec with
  | root t b =>
    by_cases hb : b = ""
    · left; simp [CrawlNodesRecursive, hb]
    · right; simp [CrawlNodesRecursive, GetRootClassName, hb]
  | derived t b base ih =>
    by_cases hb : b = ""
    · left; simp [CrawlNodesRecursive, hb]
    · simpa [CrawlNodesRecursive, GetRootClassName, hb] using ih

theorem CrawlNodesRecursive_named (ec : EntityClass) (S : Finset String)
    (hnamed : ∀ c ∈ chain ec, c.GetBase ≠ none → c.GetBaseName ≠ "")
    (hroot : GetRootClassName ec ≠ "") :
    CrawlNodesRecursive ec S = insert (GetRootClassName ec) S := by
  induction ec with
  | root t b =>
    have hb : b ≠ "" := hroot
    simp [CrawlNodesRecursive, GetRootClassName, hb]
  | derived t b base ih =>
    have hb : b ≠ "" := hnamed _ (self_mem_chain _) (by simp [GetBase])
    have h1 := ih (fun c hc => hnamed c (by simp [chain, hc])) hroot
    simpa [CrawlNodesRecursive, GetRootClassName, hb] using h1

/-! ## Claims on `CrawlNodesRecursive` -/

/-- C2 (as stated) fails: the class C with a direct base reference to A but an
empty textual base name, where A has no direct base and textual base name
"Root", resolves to the non-empty root name "Root", yet crawling it from the
empty root-name set leaves the set empty. -/
theorem CrawlNodesRecursive_skips_unnamed_link :
    GetRootClassName (.derived "C" "" (.root "A" "Root")) = "Root" ∧
    GetRootClassName (.derived "C" "" (.root "A" "Root")) ≠ "" ∧
    CrawlNodesRecursive (.derived "C" "" (.root "A" "Root")) ∅ = ∅ ∧
    GetRootClassName (.derived "C" "" (.root "A" "Root")) ∉
      CrawlNodesRecursive (.derived "C" "" (.root "A" "Root")) ∅ ∧
    CrawlNodesRecursive (.derived "C" "" (.root "A" "Root")) ∅ ≠ ∅ ∪ {"Root"} := by
  decide

/-- C2 (amended): when every class on the chain of `ec` that has a direct base
reference also has a non-empty textual base name, and the terminal class `t` of
the chain has the non-empty textual base name N, then the root-name set after
`CrawlNodesRecursive ec` is exactly S ∪ {N}, whatever S was; and N, which is
`GetRootClassName ec`, is a member of it. -/
theorem CrawlNodesRecursive_records_root (ec : EntityClass) (S : Finset String)
    (hnamed : ∀ c ∈ chain ec, c.GetBase ≠ none → c.GetBaseName ≠ "")
    (t : EntityClass) (hlast : (chain ec).getLast? = some t)
    (hN : t.GetBaseName ≠ "") :
    CrawlNodesRecursive ec S = S ∪ {t.GetBaseName} ∧
    GetRootClassName ec = t.GetBaseName ∧
    GetRootClassName ec ∈ CrawlNodesRecursive ec S := by
  obtain ⟨u, hu, -, hr⟩ := chain_getLast ec
  have hut : u = t := by rw [hu] at hlast; exact Option.some.inj hlast
  subst hut
  have h := CrawlNodesRecursive_named ec S hnamed (by rw [hr]; exact hN)
  refine ⟨?_, hr, ?_⟩
  · rw [h, hr, Finset.union_comm]; rfl
  · rw [h]; exact Finset.mem_insert_self _ _

/-- Witness for C2 (amended): the chain C -> B -> A with terminal base name "Root",
crawled when the set already holds "Root" and "Other". -/
theorem CrawlNodesRecursive_records_root_witness :
    CrawlNodesRecursive (.derived "C" "B" (.derived "B" "A" (.root "A" "Root")))
        {"Root", "Other"} = {"Root", "Other"} ∪ {"Root"} ∧
    GetRootClassName (.derived "C" "B" (.derived "B" "A" (.root "A" "Root"))) = "Root" ∧
    GetRootClassName (.derived "C" "B" (.derived "B" "A" (.root "A" "Root"))) ∈
      CrawlNodesRecursive (.derived "C" "B" (.derived "B" "A" (.root "A" "Root")))
        {"Root", "Other"} :=
  CrawlNodesRecursive_records_root
    (.derived "C" "B" (.derived "B" "A" (.root "A" "Root"))) {"Root", "Other"}
    (by decide) (.root "A" "Root") (by decide) (by decide)

/-- C3: when `GetRootClassName ec` is the empty string, `CrawlNodesRecursive ec`
leaves the root-name set unchanged; and for every class, if the empty string is
not in the set before the crawl it is not in it afterwards. -/
theorem CrawlNodesRecursive_empty_root_unchanged (ec : EntityClass) (S : Finset String) :
    (GetRootClassName ec = "" → CrawlNodesRecursive ec S = S) ∧
    ("" ∉ S → "" ∉ CrawlNodesRecursive ec S) := by
  rcases CrawlNodesRecursive_cases ec S with h | ⟨hne, h⟩
  · exact ⟨fun _ => h, fun hS => by rw [h]; exact hS⟩
  · refine ⟨fun he => absurd he hne, fun hS => ?_⟩
    rw [h, Finset.mem_insert]
    rintro (h1 | h1)
    · exact hne h1.symm
    · exact hS h1

/-- Witness for C3: the class X with no direct base and an empty textual base
name resolves to the empty root name, and crawling it keeps the set {"Root"},
which does not contain the empty string. -/
theorem CrawlNodesRecursive_empty_root_unchanged_witness :
    GetRootClassName (.derived "Y" "X" (.root "X" "")) = "" ∧
    CrawlNodesRecursive (.derived "Y" "X" (.root "X" "")) {"Root"} = {"Root"} ∧
    "" ∉ CrawlNodesRecursive (.derived "Y" "X" (.root "X" "")) {"Root"} :=
  ⟨by decide,
   (CrawlNodesRecursive_empty_root_unchanged
      (.derived "Y" "X" (.root "X" "")) {"Root"}).1 (by decide),
   (CrawlNodesRecursive_empty_root_unchanged
      (.derived "Y" "X" (.root "X" "")) {"Root"}).2 (by decide)⟩

/-! ## Lemmas on the node map and the graph -/

theorem NodeMap.find_append_single (m : NodeMap) (k : String) (v : Agnode) (key : String) :
    NodeMap.find (m ++ [(k, v)]) key =
      match NodeMap.find m key with
      | some x => some x
      | none => if k = key then some v else none := by
  induction m with
  | nil => simp [NodeMap.find]
  | cons p rest ih =>
    obtain ⟨k1, v1⟩ := p
    by_cases h : k1 = key
    · simp [NodeMap.find, h]
    · simpa [NodeMap.find, h] using ih

theorem Agraph.le_refl (g : Agraph) : g.le g :=
  ⟨Finset.Subset.refl _, Finset.Subset.refl _⟩

theorem Agraph.le_trans {a b c : Agraph} (h1 : a.le b) (h2 : b.le c) : a.le c :=
  ⟨h1.1.trans h2.1, h1.2.trans h2.2⟩

theorem agnode_le (g : Agraph) (name : String) : g.le (agnode g name).1 :=
  ⟨Finset.subset_insert _ _, Finset.Subset.refl _⟩

theorem agedge_le (g : Agraph) (t hd : Agnode) : g.le (agedge g t hd) :=
  ⟨Finset.Subset.refl _, Finset.subset_insert _ _⟩

theorem mem_agnode (g : Agraph) (name : String) : name ∈ (agnode g name).1.nodes :=
  Finset.mem_insert_self _ _

theorem mem_agedge (g : Agraph) (t hd : Agnode) : (t, hd) ∈ (agedge g t hd).edges :=
  Finset.mem_insert_self _ _

theorem agnode_eq_of_mem (G : Agraph) (name : String) (h : name ∈ G.nodes) :
    agnode G name = (G, name) := by
  simp [agnode, Finset.insert_eq_of_mem h]

theorem agedge_eq_of_mem (G : Agraph) (t hd : Agnode) (h : (t, hd) ∈ G.edges) :
    agedge G t hd = G := by
  simp [agedge, Finset.insert_eq_of_mem h]

/-! ## Unfolding `AddNodeRecursive` -/

theorem AddNodeRecursive_found (R : String) (ec : EntityClass) (g : Agraph) (m : NodeMap)
    (x : Agnode) (h : NodeMap.find m ec.GetTypeName = some x) :
    AddNodeRecursive R ec g m = (some x, g, m) := by
  cases ec <;> simp_all [AddNodeRecursive, GetTypeName]

theorem AddNodeRecursive_other_root (R : String) (ec : EntityClass) (g : Agraph)
    (m : NodeMap) (h : NodeMap.find m ec.GetTypeName = none)
    (hr : GetRootClassName ec ≠ R) :
    AddNodeRecursive R ec g m = (none, g, m) := by
  cases ec <;> simp_all [AddNodeRecursive, GetTypeName]

theorem AddNodeRecursive_derived (R name baseName : String) (base : EntityClass)
    (g : Agraph) (m : NodeMap) (h : NodeMap.find m name = none)
    (hr : GetRootClassName base = R) :
    AddNodeRecursive R (.derived name baseName base) g m =
      (some name,
        (match (AddNodeRecursive R base (agnode g name).1 m).1 with
          | some baseNode =>
            agedge (AddNodeRecursive R base (agnode g name).1 m).2.1 baseNode name
          | none => (AddNodeRecursive R base (agnode g name).1 m).2.1),
        (AddNodeRecursive R base (agnode g name).1 m).2.2) := by
  rw [AddNodeRecursive]
  simp only [h, GetRootClassName, hr, ne_eq, not_true_eq_false, if_false]
  rcases hres : AddNodeRecursive R base (agnode g name).1 m with ⟨_ | b, g2, m2⟩ <;>
    simp [agnode]

theorem AddNodeRecursive_root_unnamed (R name : String) (g : Agraph) (m : NodeMap)
    (h : NodeMap.find m name = none) (hr : R = "") :
    AddNodeRecursive R (.root name "") g m = (some name, (agnode g name).1, m) := by
  simp [AddNodeRecursive, h, GetRootClassName, hr, agnode]

theorem AddNodeRecursive_root_named_found (R name : String) (g : Agraph) (m : NodeMap)
    (x : Agnode) (h : NodeMap.find m name = none) (hR : R ≠ "")
    (hx : NodeMap.find m R = some x) :
    AddNodeRecursive R (.root name R) g m =
      (some name, agedge (agnode g name).1 x name, m) := by
  simp [AddNodeRecursive, h, GetRootClassName, hR, hx, agnode, NodeMap.emplace]

theorem AddNodeRecursive_root_named_new (R name : String) (g : Agraph) (m : NodeMap)
    (h : NodeMap.find m name = none) (hR : R ≠ "")
    (hx : NodeMap.find m R = none) :
    AddNodeRecursive R (.root name R) g m =
      (some name, agedge (agnode (agnode g name).1 R).1 R name, m ++ [(R, R)]) := by
  simp [AddNodeRecursive, h, GetRootClassName, hR, hx, agnode, NodeMap.emplace]

/-! ## What one call of `AddNodeRecursive` does to the graph and the map -/

/-- A call only adds to the graph, and either leaves the map as it is or appends
the entry for the target root, mapped to the node of that name. -/
theorem AddNodeRecursive_grows (R : String) (ec : EntityClass) :
    ∀ (g : Agraph) (m : NodeMap),
      g.le (AddNodeRecursive R ec g m).2.1 ∧
      ((AddNodeRecursive R ec g m).2.2 = m ∨
        (NodeMap.find m R = none ∧ (AddNodeRecursive R ec g m).2.2 = m ++ [(R, R)] ∧
          R ∈ (AddNodeRecursive R ec g m).2.1.nodes)) := by
  induction ec with
  | root name b =>
    intro g m
    cases hf : NodeMap.find m name with
    | some x =>
      rw [AddNodeRecursive_found R (.root name b) g m x hf]
      exact ⟨Agraph.le_refl g, Or.inl rfl⟩
    | none =>
      by_cases hr : b = R
      · subst hr
        by_cases he : b = ""
        · subst he
          rw [AddNodeRecursive_root_unnamed "" name g m hf rfl]
          exact ⟨agnode_le g name, Or.inl rfl⟩
        · cases hx : NodeMap.find m b with
          | some x =>
            rw [AddNodeRecursive_root_named_found b name g m x hf he hx]
            exact ⟨Agraph.le_trans (agnode_le g name) (agedge_le _ _ _), Or.inl rfl⟩
          | none =>
            rw [AddNodeRecursive_root_named_new b name g m hf he hx]
            refine ⟨Agraph.le_trans (agnode_le g name)
              (Agraph.le_trans (agnode_le _ b) (agedge_le _ _ _)), Or.inr ⟨rfl, rfl, ?_⟩⟩
            exact (agedge_le _ _ _).1 (mem_agnode _ b)
      · rw [AddNodeRecursive_other_root R (.root name b) g m hf hr]
        exact ⟨Agraph.le_refl g, Or.inl rfl⟩
  | derived name b base ih =>
    intro g m
    cases hf : NodeMap.find m name with
    | some x =>
      rw [AddNodeRecursive_found R (.derived name b base) g m x hf]
      exact ⟨Agraph.le_refl g, Or.inl rfl⟩
    | none =>
      by_cases hr : GetRootClassName base = R
      · rw [AddNodeRecursive_derived R name b base g m hf hr]
        obtain ⟨hle, hmap⟩ := ih (agnode g name).1 m
        have hle2 : (AddNodeRecursive R base (agnode g name).1 m).2.1.le
            (match (AddNodeRecursive R base (agnode g name).1 m).1 with
              | some baseNode =>
                agedge (AddNodeRecursive R base (agnode g name).1 m).2.1 baseNode name
              | none => (AddNodeRecursive R base (agnode g name).1 m).2.1) := by
          cases (AddNodeRecursive R base (agnode g name).1 m).1 with
          | none => exact Agraph.le_refl _
          | some x => exact agedge_le _ _ _
        refine ⟨Agraph.le_trans (agnode_le g name) (Agraph.le_trans hle hle2), ?_⟩
        rcases hmap with h | ⟨h1, h2, h3⟩
        · exact Or.inl h
        · exact Or.inr ⟨h1, h2, hle2.1 h3⟩
      · rw [AddNodeRecursive_other_root R (.derived name b base) g m hf hr]
        exact ⟨Agraph.le_refl g, Or.inl rfl⟩

/-- Running a call again on any graph that already holds everything the call
produced, with a map that looks up like the map the call produced, returns the
same result and changes nothing. -/
theorem AddNodeRecursive_replay (R : String) (ec : EntityClass) :
    ∀ (g : Agraph) (m : NodeMap) (G : Agraph) (M : NodeMap),
      (AddNodeRecursive R ec g m).2.1.le G →
      (∀ k, NodeMap.find M k = NodeMap.find (AddNodeRecursive R ec g m).2.2 k) →
      AddNodeRecursive R ec G M = ((AddNodeRecursive R ec g m).1, G, M) := by
  induction ec with
  | root name b =>
    intro g m G M hle hM
    cases hf : NodeMap.find m name with
    | some x =>
      rw [AddNodeRecursive_found R (.root name b) g m x hf] at hle hM ⊢
      exact AddNodeRecursive_found R (.root name b) G M x (by rw [hM]; exact hf)
    | none =>
      by_cases hr : b = R
      · subst hr
        by_cases he : b = ""
        · subst he
          rw [AddNodeRecursive_root_unnamed "" name g m hf rfl] at hle hM ⊢
          have hMf : NodeMap.find M name = none := by rw [hM]; exact hf
          rw [AddNodeRecursive_root_unnamed "" name G M hMf rfl,
            agnode_eq_of_mem G name (hle.1 (mem_agnode g name))]
        · cases hx : NodeMap.find m b with
          | some x =>
            rw [AddNodeRecursive_root_named_found b name g m x hf he hx] at hle hM ⊢
            have hMf : NodeMap.find M name = none := by rw [hM]; exact hf
            have hMx : NodeMap.find M b = some x := by rw [hM]; exact hx
            have hn : name ∈ G.nodes := hle.1 ((agedge_le _ _ _).1 (mem_agnode g name))
            rw [AddNodeRecursive_root_named_found b name G M x hMf he hMx,
              agnode_eq_of_mem G name hn, agedge_eq_of_mem G x name (hle.2 (mem_agedge _ _ _))]
          | none =>
            rw [AddNodeRecursive_root_named_new b name g m hf he hx] at hle hM ⊢
            have hMb : NodeMap.find M b = some b := by
              rw [hM, NodeMap.find_append_single, hx]; simp
            by_cases hn : b = name
            · subst hn
              exact AddNodeRecursive_found b (.root b b) G M b hMb
            · have hMf : NodeMap.find M name = none := by
                rw [hM, NodeMap.find_append_single, hf]; simp [hn]
              have hnode : name ∈ G.nodes :=
                hle.1 ((agedge_le _ _ _).1 ((agnode_le _ _).1 (mem_agnode g name)))
              rw [AddNodeRecursive_root_named_found b name G M b hMf he hMb,
                agnode_eq_of_mem G name hnode,
                agedge_eq_of_mem G b name (hle.2 (mem_agedge _ _ _))]
      · rw [AddNodeRecursive_other_root R (.root name b) g m hf hr] at hle hM ⊢
        exact AddNodeRecursive_other_root R (.root name b) G M (by rw [hM]; exact hf) hr
  | derived name b base ih =>
    intro g m G M hle hM
    cases hf : NodeMap.find m name with
    | some x =>
      rw [AddNodeRecursive_found R (.derived name b base) g m x hf] at hle hM ⊢
      exact AddNodeRecursive_found R (.derived name b base) G M x (by rw [hM]; exact hf)
    | none =>
      by_cases hr : GetRootClassName base = R
      · rw [AddNodeRecursive_derived R name b base g m hf hr] at hle hM ⊢
        obtain ⟨hgrow, hmap⟩ := AddNodeRecursive_grows R base (agnode g name).1 m
        have hbase : (AddNodeRecursive R base (agnode g name).1 m).2.1.le G := by
          refine Agraph.le_trans ?_ hle
          cases (AddNodeRecursive R base (agnode g name).1 m).1 with
          | none => exact Agraph.le_refl _
          | some x => exact agedge_le _ _ _
        have hnode : name ∈ G.nodes := hbase.1 (hgrow.1 (mem_agnode g name))
        have hrec := ih (agnode g name).1 m G M hbase hM
        cases hMf : NodeMap.find M name with
        | some y =>
          -- the early return fires on the second run: the name is the target root
          have hy : y = name := by
            rcases hmap with h | ⟨h1, h2, -⟩
            · rw [hM, h, hf] at hMf; cases hMf
            · rw [hM, h2, NodeMap.find_append_single, hf] at hMf
              by_cases hRn : R = name
              · simp [hRn] at hMf; exact hMf.symm
              · simp [hRn] at hMf
          subst hy
          exact AddNodeRecursive_found R (.derived y b base) G M y hMf
        | none =>
          rw [AddNodeRecursive_derived R name b base G M hMf hr,
            agnode_eq_of_mem G name hnode, hrec]
          cases hres : (AddNodeRecursive R base (agnode g name).1 m).1 with
          | none => rfl
          | some x =>
            have hedge : (x, name) ∈ G.edges := by
              rw [hres] at hle
              exact hle.2 (mem_agedge _ _ _)
            simp [agedge_eq_of_mem G x name hedge]
      · rw [AddNodeRecursive_other_root R (.derived name b base) g m hf hr] at hle hM ⊢
        exact AddNodeRecursive_other_root R (.derived name b base) G M
          (by rw [hM]; exact hf) hr

/-! ## Claims on single calls of `AddNodeRecursive` -/

/-- C4: when `GetRootClassName ec` differs from the target root, a call of
`AddNodeRecursive` for `ec` leaves the node set, the edge set and the node-name
map as they were: no node and no edge is added. -/
theorem AddNodeRecursive_other_root_unchanged (R : String) (ec : EntityClass)
    (graph : Agraph) (classNodes : NodeMap) (h : GetRootClassName ec ≠ R) :
    (AddNodeRecursive R ec graph classNodes).2.1.nodes = graph.nodes ∧
    (AddNodeRecursive R ec graph classNodes).2.1.edges = graph.edges ∧
    (AddNodeRecursive R ec graph classNodes).2.2 = classNodes := by
  cases hf : NodeMap.find classNodes ec.GetTypeName with
  | some x =>
    rw [AddNodeRecursive_found R ec graph classNodes x hf]
    exact ⟨rfl, rfl, rfl⟩
  | none =>
    rw [AddNodeRecursive_other_root R ec graph classNodes hf h]
    exact ⟨rfl, rfl, rfl⟩

/-- Witness for C4: a class resolving to "Other" is offered to the graph of
"Root", which already holds a node, an edge and a map entry. -/
theorem AddNodeRecursive_other_root_unchanged_witness :
    GetRootClassName (.derived "C" "A" (.root "A" "Other")) ≠ "Root" ∧
    (AddNodeRecursive "Root" (.derived "C" "A" (.root "A" "Other"))
      ⟨{"Root", "X"}, {("Root", "X")}⟩ [("Root", "Root")]).2.1.nodes = {"Root", "X"} ∧
    (AddNodeRecursive "Root" (.derived "C" "A" (.root "A" "Other"))
      ⟨{"Root", "X"}, {("Root", "X")}⟩ [("Root", "Root")]).2.1.edges = {("Root", "X")} ∧
    (AddNodeRecursive "Root" (.derived "C" "A" (.root "A" "Other"))
      ⟨{"Root", "X"}, {("Root", "X")}⟩ [("Root", "Root")]).2.2 = [("Root", "Root")] :=
  ⟨by decide,
   AddNodeRecursive_other_root_unchanged "Root" (.derived "C" "A" (.root "A" "Other"))
     ⟨{"Root", "X"}, {("Root", "X")}⟩ [("Root", "Root")] (by decide)⟩

/-- C5: a second call of `AddNodeRecursive` with the same arguments, right after a
first one, returns the same node (or the same "no node") as the first and
leaves the node set, the edge set and the node-name map as the first call left
them. -/
theorem AddNodeRecursive_idempotent (R : String) (ec : EntityClass)
    (graph : Agraph) (classNodes : NodeMap) :
    AddNodeRecursive R ec (AddNodeRecursive R ec graph classNodes).2.1
        (AddNodeRecursive R ec graph classNodes).2.2 =
      AddNodeRecursive R ec graph classNodes :=
  AddNodeRecursive_replay R ec graph classNodes _ _ (Agraph.le_refl _) (fun _ => rfl)

/-! ## The invariant of the per-root loop -/

theorem MapInv.find_some {R : String} {g : Agraph} {m : NodeMap} (h : MapInv R g m)
    {k : String} {v : Agnode} (hf : NodeMap.find m k = some v) :
    k = R ∧ v = R ∧ R ∈ g.nodes := by
  rcases h with h | ⟨h, hn⟩
  · subst h; simp [NodeMap.find] at hf
  · subst h
    by_cases hk : R = k
    · simp [NodeMap.find, hk] at hf
      exact ⟨hk.symm, by rw [← hf, hk], hn⟩
    · simp [NodeMap.find, hk] at hf

theorem MapInv.mono {R : String} {g G : Agraph} {m : NodeMap} (h : MapInv R g m)
    (hle : g.le G) : MapInv R G m := by
  rcases h with h | ⟨h, hn⟩
  · exact Or.inl h
  · exact Or.inr ⟨h, hle.1 hn⟩

theorem MapInv.preserved {R : String} {g : Agraph} {m : NodeMap} (h : MapInv R g m)
    (ec : EntityClass) :
    MapInv R (AddNodeRecursive R ec g m).2.1 (AddNodeRecursive R ec g m).2.2 := by
  obtain ⟨hle, hmap⟩ := AddNodeRecursive_grows R ec g m
  rcases hmap with h1 | ⟨h1, h2, h3⟩
  · rw [h1]; exact h.mono hle
  · rcases h with h | ⟨h, -⟩
    · subst h
      exact Or.inr ⟨by rw [h2]; rfl, h3⟩
    · subst h
      simp [NodeMap.find] at h1

theorem NodesSound.agnode {R : String} {U : EntityClass → Prop} {g : Agraph}
    (h : NodesSound R U g) (n : String)
    (hn : n = R ∨ ∃ c, U c ∧ c.GetTypeName = n ∧ GetRootClassName c = R) :
    NodesSound R U (agnode g n).1 := by
  intro x hx
  simp only [SWBF2Hierarchy.agnode, Finset.mem_insert] at hx
  rcases hx with hx | hx
  · rw [hx]; exact hn
  · exact h x hx

theorem EdgesSound.agedge {R : String} {U : EntityClass → Prop} {g : Agraph}
    (h : EdgesSound R U g) (a b : Agnode)
    (hab : ∃ c, U c ∧ c.GetTypeName = b ∧ GetRootClassName c = R ∧
      ((∃ p, c.GetBase = some p ∧ a = p.GetTypeName) ∨ (c.GetBase = none ∧ a = R))) :
    EdgesSound R U (agedge g a b) := by
  intro x y hxy
  simp only [SWBF2Hierarchy.agedge, Finset.mem_insert, Prod.mk.injEq] at hxy
  rcases hxy with ⟨hx, hy⟩ | hxy
  · rw [hx, hy]; exact hab
  · exact h x y hxy

/-- One call keeps the invariant, and a node it returns is named after the class. -/
theorem Inv.step {R : String} {U : EntityClass → Prop} (ec : EntityClass) :
    ∀ (g : Agraph) (m : NodeMap), Inv R U g m → (∀ c ∈ chain ec, U c) →
      Inv R U (AddNodeRecursive R ec g m).2.1 (AddNodeRecursive R ec g m).2.2 ∧
      (∀ x, (AddNodeRecursive R ec g m).1 = some x → x = ec.GetTypeName) := by
  induction ec with
  | root name b =>
    intro g m hinv hU
    have hmap := hinv.1.preserved (.root name b)
    have hself : U (.root name b) := hU _ (self_mem_chain _)
    cases hf : NodeMap.find m name with
    | some x =>
      rw [AddNodeRecursive_found R (.root name b) g m x hf]
      refine ⟨hinv, fun y hy => ?_⟩
      obtain ⟨h1, h2, -⟩ := hinv.1.find_some hf
      cases hy
      rw [h2, ← h1]; rfl
    | none =>
      by_cases hr : b = R
      · subst hr
        have hnode : name = b ∨ ∃ c, U c ∧ c.GetTypeName = name ∧ GetRootClassName c = b :=
          Or.inr ⟨_, hself, rfl, rfl⟩
        have hedge : ∃ c, U c ∧ c.GetTypeName = name ∧ GetRootClassName c = b ∧
            ((∃ p, c.GetBase = some p ∧ b = p.GetTypeName) ∨ (c.GetBase = none ∧ b = b)) :=
          ⟨_, hself, rfl, rfl, Or.inr ⟨rfl, rfl⟩⟩
        by_cases he : b = ""
        · subst he
          rw [AddNodeRecursive_root_unnamed "" name g m hf rfl] at hmap ⊢
          exact ⟨⟨hmap, hinv.2.1.agnode name hnode, hinv.2.2⟩, fun y hy => by cases hy; rfl⟩
        · cases hx : NodeMap.find m b with
          | some x =>
            obtain ⟨-, h2, -⟩ := hinv.1.find_some hx
            subst h2
            rw [AddNodeRecursive_root_named_found x name g m x hf he hx] at hmap ⊢
            refine ⟨⟨hmap, hinv.2.1.agnode name hnode, ?_⟩, fun y hy => by cases hy; rfl⟩
            exact EdgesSound.agedge (g := (agnode g name).1) hinv.2.2 x name hedge
          | none =>
            rw [AddNodeRecursive_root_named_new b name g m hf he hx] at hmap ⊢
            refine ⟨⟨hmap, ?_, ?_⟩, fun y hy => by cases hy; rfl⟩
            · exact (hinv.2.1.agnode name hnode).agnode b (Or.inl rfl)
            · exact EdgesSound.agedge (g := (agnode (agnode g name).1 b).1) hinv.2.2 b name hedge
      · rw [AddNodeRecursive_other_root R (.root name b) g m hf hr]
        exact ⟨hinv, fun y hy => by cases hy⟩
  | derived name b base ih =>
    intro g m hinv hU
    have hmap := hinv.1.preserved (.derived name b base)
    have hself : U (.derived name b base) := hU _ (self_mem_chain _)
    cases hf : NodeMap.find m name with
    | some x =>
      rw [AddNodeRecursive_found R (.derived name b base) g m x hf]
      refine ⟨hinv, fun y hy => ?_⟩
      obtain ⟨h1, h2, -⟩ := hinv.1.find_some hf
      cases hy
      rw [h2, ← h1]; rfl
    | none =>
      by_cases hr : GetRootClassName base = R
      · rw [AddNodeRecursive_derived R name b base g m hf hr] at hmap ⊢
        have hinv1 : Inv R U (agnode g name).1 m :=
          ⟨hinv.1.mono (agnode_le g name),
            hinv.2.1.agnode name (Or.inr ⟨_, hself, rfl, hr⟩), hinv.2.2⟩
        obtain ⟨hrec, hres⟩ := ih (agnode g name).1 m hinv1
          (fun c hc => hU c (by simp [chain, hc]))
        refine ⟨⟨hmap, ?_, ?_⟩, fun y hy => by cases hy; rfl⟩
        · cases hb : (AddNodeRecursive R base (agnode g name).1 m).1 with
          | none => exact hrec.2.1
          | some x => exact hrec.2.1
        · cases hb : (AddNodeRecursive R base (agnode g name).1 m).1 with
          | none => exact hrec.2.2
          | some x =>
            have hx := hres x hb
            exact hrec.2.2.agedge x name ⟨_, hself, rfl, hr, Or.inl ⟨base, rfl, hx⟩⟩
      · rw [AddNodeRecursive_other_root R (.derived name b base) g m hf hr]
        exact ⟨hinv, fun y hy => by cases hy⟩

theorem Inv.addAll {R : String} {U : EntityClass → Prop} (ecs : List EntityClass) :
    ∀ (g : Agraph) (m : NodeMap), Inv R U g m → (∀ ec ∈ ecs, ∀ c ∈ chain ec, U c) →
      Inv R U (addAll R ecs g m).1 (addAll R ecs g m).2 := by
  induction ecs with
  | nil => intro g m h _; exact h
  | cons ec rest ih =>
    intro g m h hU
    rw [SWBF2Hierarchy.addAll]
    exact ih _ _ ((Inv.step ec g m h (hU ec (List.mem_cons_self _ _))).1)
      (fun e he => hU e (List.mem_cons_of_mem _ he))

theorem Inv.buildGraph (R : String) (ecs : List EntityClass) :
    Inv R (fun c => ∃ ec ∈ ecs, c ∈ chain ec) (buildGraph R ecs).1 (buildGraph R ecs).2 := by
  refine Inv.addAll ecs Agraph.empty [] ⟨Or.inl rfl, ?_, ?_⟩ (fun ec he c hc => ⟨ec, he, hc⟩)
  · intro n hn; simp [Agraph.empty] at hn
  · intro a b hab; simp [Agraph.empty] at hab

theorem chain_getLast_derived (name b : String) (base : EntityClass) :
    (chain (.derived name b base)).getLast? = (chain base).getLast? := by
  rw [chain]
  cases hc : chain base with
  | nil => exact absurd hc (chain_ne_nil base)
  | cons x xs => rw [List.getLast?_cons_cons]

/-- When no class of the chain is found in the map, a call for a class resolving
to the target root puts the whole chain into the graph. -/
theorem AddNodeRecursive_chain (R : String) (ec : EntityClass) :
    ∀ (g : Agraph) (m : NodeMap), MapInv R g m → GetRootClassName ec = R →
      (∀ c ∈ chain ec, NodeMap.find m c.GetTypeName = none) →
      (AddNodeRecursive R ec g m).1 = some ec.GetTypeName ∧
      (∀ c ∈ chain ec, c.GetTypeName ∈ (AddNodeRecursive R ec g m).2.1.nodes) ∧
      (∀ c ∈ chain ec, ∀ p, c.GetBase = some p →
        (p.GetTypeName, c.GetTypeName) ∈ (AddNodeRecursive R ec g m).2.1.edges) ∧
      (∀ t, (chain ec).getLast? = some t → t.GetBaseName ≠ "" →
        t.GetBaseName ∈ (AddNodeRecursive R ec g m).2.1.nodes ∧
        (t.GetBaseName, t.GetTypeName) ∈ (AddNodeRecursive R ec g m).2.1.edges) := by
  induction ec with
  | root name b =>
    intro g m hmap hroot hnew
    have hf : NodeMap.find m name = none := hnew _ (self_mem_chain _)
    have hr : b = R := hroot
    subst hr
    have hpairs : ∀ (G : Agraph), ∀ c ∈ chain (.root name b), ∀ p, c.GetBase = some p →
        (p.GetTypeName, c.GetTypeName) ∈ G.edges := by
      intro G c hc p hp
      simp only [chain, List.mem_singleton] at hc
      subst hc
      simp [GetBase] at hp
    have hlast : ∀ t, (chain (.root name b)).getLast? = some t → t = .root name b := by
      intro t ht
      simp only [chain, List.getLast?_singleton, Option.some.injEq] at ht
      exact ht.symm
    have hnodes : ∀ (G : Agraph), name ∈ G.nodes →
        ∀ c ∈ chain (.root name b), c.GetTypeName ∈ G.nodes := by
      intro G hG c hc
      simp only [chain, List.mem_singleton] at hc
      subst hc
      exact hG
    by_cases he : b = ""
    · subst he
      rw [AddNodeRecursive_root_unnamed "" name g m hf rfl]
      refine ⟨rfl, hnodes _ (mem_agnode g name), hpairs _, fun t ht hne => ?_⟩
      rw [hlast t ht] at hne
      exact absurd rfl hne
    · cases hx : NodeMap.find m b with
      | some x =>
        obtain ⟨-, h2, h3⟩ := hmap.find_some hx
        subst h2
        rw [AddNodeRecursive_root_named_found x name g m x hf he hx]
        refine ⟨rfl, hnodes _ ((agedge_le _ _ _).1 (mem_agnode g name)), hpairs _,
          fun t ht _ => ?_⟩
        rw [hlast t ht]
        exact ⟨(agedge_le _ _ _).1 ((agnode_le g name).1 h3), mem_agedge _ _ _⟩
      | none =>
        rw [AddNodeRecursive_root_named_new b name g m hf he hx]
        refine ⟨rfl,
          hnodes _ ((agedge_le _ _ _).1 ((agnode_le _ _).1 (mem_agnode g name))),
          hpairs _, fun t ht _ => ?_⟩
        rw [hlast t ht]
        exact ⟨(agedge_le _ _ _).1 (mem_agnode _ b), mem_agedge _ _ _⟩
  | derived name b base ih =>
    intro g m hmap hroot hnew
    have hf : NodeMap.find m name = none := hnew _ (self_mem_chain _)
    have hr : GetRootClassName base = R := hroot
    obtain ⟨hres, hn, hp, hl⟩ := ih (agnode g name).1 m (hmap.mono (agnode_le g name)) hr
      (fun c hc => hnew c (by simp [chain, hc]))
    obtain ⟨hgrow, -⟩ := AddNodeRecursive_grows R base (agnode g name).1 m
    rw [AddNodeRecursive_derived R name b base g m hf hr, hres]
    have hle := agedge_le (AddNodeRecursive R base (agnode g name).1 m).2.1
      base.GetTypeName name
    refine ⟨rfl, ?_, ?_, ?_⟩
    · intro c hc
      simp only [chain, List.mem_cons] at hc
      rcases hc with hc | hc
      · subst hc
        exact hle.1 (hgrow.1 (mem_agnode g name))
      · exact hle.1 (hn c hc)
    · intro c hc p hcp
      simp only [chain, List.mem_cons] at hc
      rcases hc with hc | hc
      · subst hc
        simp only [GetBase, Option.some.injEq] at hcp
        subst hcp
        exact mem_agedge _ _ _
      · exact hle.2 (hp c hc p hcp)
    · intro t ht hne
      rw [chain_getLast_derived] at ht
      exact ⟨hle.1 (hl t ht hne).1, hle.2 (hl t ht hne).2⟩

/-! ## Claims on the graph of one root -/

/-- C6 (as stated) fails: in the graph of "Root", after the earlier call for the
class A1 (no direct base, textual base name "Root"), the call for C with the
chain C -> Root -> A, where the class named Root stands between C and A and A
has textual base name "Root", stops at the class named Root, which the map
already holds. C resolves to "Root", but there is no node A, no edge from A to
the class named Root and no edge from the placeholder to A. -/
theorem AddNodeRecursive_chain_cut_at_registered_name :
    GetRootClassName (.derived "C" "Root" (.derived "Root" "A" (.root "A" "Root"))) = "Root" ∧
    "A" ∉ (AddNodeRecursive "Root"
      (.derived "C" "Root" (.derived "Root" "A" (.root "A" "Root")))
      (buildGraph "Root" [.root "A1" "Root"]).1
      (buildGraph "Root" [.root "A1" "Root"]).2).2.1.nodes ∧
    ("A", "Root") ∉ (AddNodeRecursive "Root"
      (.derived "C" "Root" (.derived "Root" "A" (.root "A" "Root")))
      (buildGraph "Root" [.root "A1" "Root"]).1
      (buildGraph "Root" [.root "A1" "Root"]).2).2.1.edges ∧
    ("Root", "A") ∉ (AddNodeRecursive "Root"
      (.derived "C" "Root" (.derived "Root" "A" (.root "A" "Root")))
      (buildGraph "Root" [.root "A1" "Root"]).1
      (buildGraph "Root" [.root "A1" "Root"]).2).2.1.edges := by
  decide

/-- C6 (amended): in a graph and node map reached from the empty ones by earlier
calls for the same root R, for a class `ec` with `GetRootClassName ec = R` such
that no class on the chain of `ec` has a type name that is a key of the node
map: after `AddNodeRecursive` for `ec` the graph has a node named after every
class of the chain (`ec` included), an edge base -> derived for every class of
the chain with a direct base, and, when the textual base name of the terminal
class is non-empty, a node of that name and the edge from it to the terminal
class. -/
theorem AddNodeRecursive_adds_chain (R : String) (earlier : List EntityClass)
    (ec : EntityClass) (hroot : GetRootClassName ec = R)
    (hnew : ∀ c ∈ chain ec, NodeMap.find (buildGraph R earlier).2 c.GetTypeName = none) :
    (∀ c ∈ chain ec, c.GetTypeName ∈
      (AddNodeRecursive R ec (buildGraph R earlier).1 (buildGraph R earlier).2).2.1.nodes) ∧
    (∀ c ∈ chain ec, ∀ p, c.GetBase = some p → (p.GetTypeName, c.GetTypeName) ∈
      (AddNodeRecursive R ec (buildGraph R earlier).1 (buildGraph R earlier).2).2.1.edges) ∧
    (∀ t, (chain ec).getLast? = some t → t.GetBaseName ≠ "" →
      t.GetBaseName ∈
        (AddNodeRecursive R ec (buildGraph R earlier).1 (buildGraph R earlier).2).2.1.nodes ∧
      (t.GetBaseName, t.GetTypeName) ∈
        (AddNodeRecursive R ec (buildGraph R earlier).1 (buildGraph R earlier).2).2.1.edges) :=
  (AddNodeRecursive_chain R ec _ _ (Inv.buildGraph R earlier).1 hroot hnew).2

/-- Witness for C6 (amended): after the call for A1, the chain C -> B -> A with
terminal base name "Root" is added as a whole. -/
theorem AddNodeRecursive_adds_chain_witness :
    (∀ c ∈ chain (.derived "C" "B" (.derived "B" "A" (.root "A" "Root"))),
      c.GetTypeName ∈ (AddNodeRecursive "Root"
        (.derived "C" "B" (.derived "B" "A" (.root "A" "Root")))
        (buildGraph "Root" [.root "A1" "Root"]).1
        (buildGraph "Root" [.root "A1" "Root"]).2).2.1.nodes) ∧
    (∀ c ∈ chain (.derived "C" "B" (.derived "B" "A" (.root "A" "Root"))),
      ∀ p, c.GetBase = some p → (p.GetTypeName, c.GetTypeName) ∈ (AddNodeRecursive "Root"
        (.derived "C" "B" (.derived "B" "A" (.root "A" "Root")))
        (buildGraph "Root" [.root "A1" "Root"]).1
        (buildGraph "Root" [.root "A1" "Root"]).2).2.1.edges) ∧
    (∀ t, (chain (.derived "C" "B" (.derived "B" "A" (.root "A" "Root")))).getLast? = some t →
      t.GetBaseName ≠ "" →
      t.GetBaseName ∈ (AddNodeRecursive "Root"
        (.derived "C" "B" (.derived "B" "A" (.root "A" "Root")))
        (buildGraph "Root" [.root "A1" "Root"]).1
        (buildGraph "Root" [.root "A1" "Root"]).2).2.1.nodes ∧
      (t.GetBaseName, t.GetTypeName) ∈ (AddNodeRecursive "Root"
        (.derived "C" "B" (.derived "B" "A" (.root "A" "Root")))
        (buildGraph "Root" [.root "A1" "Root"]).1
        (buildGraph "Root" [.root "A1" "Root"]).2).2.1.edges) :=
  AddNodeRecursive_adds_chain "Root" [.root "A1" "Root"]
    (.derived "C" "B" (.derived "B" "A" (.root "A" "Root"))) (by decide) (by decide)

/-- C9: in the graph built from the empty graph and the empty map by calls of
`AddNodeRecursive` for the classes of a list, all with the target root R, every
node is named R or after the type name of a class, on the chain of one of the
listed classes, whose `GetRootClassName` is R; and every edge runs to the node
of such a class from the node of its direct base or, when the class has no
direct base, from the node named R. -/
theorem buildGraph_sound (R : String) (entityClasses : List EntityClass) :
    (∀ n ∈ (buildGraph R entityClasses).1.nodes,
      n = R ∨ ∃ c, (∃ ec ∈ entityClasses, c ∈ chain ec) ∧
        c.GetTypeName = n ∧ GetRootClassName c = R) ∧
    (∀ a b, (a, b) ∈ (buildGraph R entityClasses).1.edges →
      ∃ c, (∃ ec ∈ entityClasses, c ∈ chain ec) ∧
        c.GetTypeName = b ∧ GetRootClassName c = R ∧
        ((∃ p, c.GetBase = some p ∧ a = p.GetTypeName) ∨ (c.GetBase = none ∧ a = R))) :=
  (Inv.buildGraph R entityClasses).2

/-- Witness for C9: the graph of "Root" for the two leaves C and D over the shared
chain B -> A, at its node C and its edge from B to C. -/
theorem buildGraph_sound_witness :
    ("C" = "Root" ∨ ∃ c,
      (∃ ec ∈ [EntityClass.derived "C" "B" (.derived "B" "A" (.root "A" "Root")),
          .derived "D" "B" (.derived "B" "A" (.root "A" "Root"))], c ∈ chain ec) ∧
        c.GetTypeName = "C" ∧ GetRootClassName c = "Root") ∧
    (∃ c,
      (∃ ec ∈ [EntityClass.derived "C" "B" (.derived "B" "A" (.root "A" "Root")),
          .derived "D" "B" (.derived "B" "A" (.root "A" "Root"))], c ∈ chain ec) ∧
        c.GetTypeName = "C" ∧ GetRootClassName c = "Root" ∧
        ((∃ p, c.GetBase = some p ∧ "B" = p.GetTypeName) ∨
          (c.GetBase = none ∧ "B" = "Root"))) :=
  ⟨(buildGraph_sound "Root"
      [.derived "C" "B" (.derived "B" "A" (.root "A" "Root")),
        .derived "D" "B" (.derived "B" "A" (.root "A" "Root"))]).1 "C" (by decide),
   (buildGraph_sound "Root"
      [.derived "C" "B" (.derived "B" "A" (.root "A" "Root")),
        .derived "D" "B" (.derived "B" "A" (.root "A" "Root"))]).2 "B" "C" (by decide)⟩

/-- C10: the node map built from the empty map by calls of `AddNodeRecursive` for
the classes of a list, all with the target root R, is empty or holds the single
entry of key R; every entry has key R and is mapped to the node named R, which
is a node of the graph; so a lookup of a class's type name in it finds
something only when that type name is R. -/
theorem buildGraph_map_keys (R : String) (entityClasses : List EntityClass) :
    ((buildGraph R entityClasses).2 = [] ∨ (buildGraph R entityClasses).2 = [(R, R)]) ∧
    (∀ k v, (k, v) ∈ (buildGraph R entityClasses).2 →
      k = R ∧ v = R ∧ R ∈ (buildGraph R entityClasses).1.nodes) ∧
    (∀ (ec : EntityClass) (found : Agnode),
      NodeMap.find (buildGraph R entityClasses).2 ec.GetTypeName = some found →
      ec.GetTypeName = R ∧ found = R) := by
  have h := (Inv.buildGraph R entityClasses).1
  refine ⟨?_, ?_, fun ec found hf => ⟨(h.find_some hf).1, (h.find_some hf).2.1⟩⟩
  · rcases h with h | ⟨h, -⟩
    · exact Or.inl h
    · exact Or.inr h
  · intro k v hkv
    rcases h with h | ⟨h, hn⟩
    · rw [h] at hkv; simp at hkv
    · rw [h] at hkv
      simp only [List.mem_singleton, Prod.mk.injEq] at hkv
      exact ⟨hkv.1, hkv.2, hn⟩

/-- Witness for C10: the map of the graph of "Root" for the two leaves C and D
over the shared chain B -> A holds the entry of "Root" only, although nodes
were created for the four classes. -/
theorem buildGraph_map_keys_witness :
    (buildGraph "Root"
      [.derived "C" "B" (.derived "B" "A" (.root "A" "Root")),
        .derived "D" "B" (.derived "B" "A" (.root "A" "Root"))]).2 = [("Root", "Root")] ∧
    ("Root" = "Root" ∧ "Root" = "Root" ∧ "Root" ∈ (buildGraph "Root"
      [.derived "C" "B" (.derived "B" "A" (.root "A" "Root")),
        .derived "D" "B" (.derived "B" "A" (.root "A" "Root"))]).1.nodes) :=
  ⟨by decide,
   (buildGraph_map_keys "Root"
      [.derived "C" "B" (.derived "B" "A" (.root "A" "Root")),
        .derived "D" "B" (.derived "B" "A" (.root "A" "Root"))]).2.1 "Root" "Root"
      (by decide)⟩

/-! ## Lemmas on path resolution -/

theorem walk_append (root : Entry) (a b : List String) :
    ∀ loc : Location, walk root loc (a ++ b) = (walk root loc a).bind (fun l => walk root l b) := by
  induction a with
  | nil => intro loc; simp [walk]
  | cons c rest ih =>
    intro loc
    simp only [List.cons_append, walk]
    cases entryAt root loc with
    | none => simp
    | some e =>
      cases e with
      | file n => simp
      | other n => simp
      | dir n children =>
        simp only
        split
        · exact ih loc
        · split
          · exact ih _
          · cases findEntry c children with
            | none => simp
            | some x => exact ih _

theorem entryAt_append (a b : Location) :
    ∀ e : Entry, entryAt e (a ++ b) = (entryAt e a).bind (fun c => entryAt c b) := by
  induction a with
  | nil => intro e; simp [entryAt]
  | cons n rest ih =>
    intro e
    cases e with
    | file m => cases b <;> simp [entryAt]
    | other m => cases b <;> simp [entryAt]
    | dir m children =>
      simp only [List.cons_append, entryAt]
      cases findEntry n children with
      | none => simp
      | some c => exact ih c

theorem plainName_spec {n : String} (h : plainName n = true) :
    n ≠ "" ∧ n ≠ "." ∧ n ≠ ".." ∧ n ≠ "/" := by
  simp only [plainName, Bool.and_eq_true, decide_eq_true_eq] at h
  exact ⟨h.1.1.1, h.1.1.2, h.1.2, h.2⟩

theorem walk_single_name (root : Entry) (loc : Location) (dn n : String)
    (children : List Entry) (c : Entry) (hdir : entryAt root loc = some (.dir dn children))
    (hfind : findEntry n children = some c) (hn : plainName n = true) :
    walk root loc [n] = some (loc ++ [n]) := by
  obtain ⟨h1, h2, h3, -⟩ := plainName_spec hn
  simp [walk, hdir, h1, h2, h3, hfind]

theorem walk_single_empty (root : Entry) (l loc : Location)
    (h : walk root l [""] = some loc) : l = loc := by
  simp only [walk] at h
  cases he : entryAt root l with
  | none => simp [he] at h
  | some e =>
    cases e with
    | file n => simp [he] at h
    | other n => simp [he] at h
    | dir n children => simpa [he] using h

theorem walk_strip (root : Entry) (start loc : Location) (comps : List String)
    (h : walk root start comps = some loc) :
    walk root start (if comps.getLast? = some "" then comps.dropLast else comps) = some loc := by
  by_cases hl : comps.getLast? = some ""
  · rw [if_pos hl]
    have hc : comps.dropLast ++ [""] = comps := List.dropLast_append_getLast? "" hl
    rw [← hc, walk_append] at h
    cases hw : walk root start comps.dropLast with
    | none => simp [hw] at h
    | some l =>
      simp only [hw, Option.some_bind] at h
      rw [walk_single_empty root l loc h]
  · rw [if_neg hl]; exact h

theorem resolve_pathAppend (fs : FileSystem) (Directory : Path) (loc : Location)
    (dn n : String) (children : List Entry) (c : Entry)
    (hres : resolve fs Directory = some loc)
    (hdir : entryAt fs.root loc = some (.dir dn children))
    (hfind : findEntry n children = some c) (hn : plainName n = true) :
    resolve fs (pathAppend Directory n) = some (loc ++ [n]) := by
  have hstep := walk_single_name fs.root loc dn n children c hdir hfind hn
  have hn4 : n ≠ "/" := (plainName_spec hn).2.2.2
  cases Directory with
  | nil => simp [resolve] at hres
  | cons c0 rest =>
    by_cases hc : c0 = "/"
    · subst hc
      simp only [resolve, if_true] at hres
      have hs := walk_strip fs.root [] loc rest hres
      cases rest with
      | nil =>
        simp only [walk, Option.some.injEq] at hres
        subst hres
        simpa [pathAppend, resolve] using hstep
      | cons r rs =>
        have h1 : pathAppend ("/" :: r :: rs) n =
            "/" :: ((if (r :: rs).getLast? = some "" then (r :: rs).dropLast else r :: rs) ++ [n]) := by
          simp only [pathAppend, List.getLast?_cons_cons, List.dropLast_cons₂]
          split <;> rfl
        rw [h1]
        simp only [resolve, if_true]
        rw [walk_append, hs]
        exact hstep
    · simp only [resolve, if_neg hc] at hres
      have hs := walk_strip fs.root fs.cwd loc (c0 :: rest) hres
      have hw : walk fs.root fs.cwd (pathAppend (c0 :: rest) n) = some (loc ++ [n]) := by
        rw [pathAppend, walk_append, hs]
        exact hstep
      rw [← hw]
      by_cases hl : (c0 :: rest).getLast? = some ""
      · cases rest with
        | nil =>
          simp only [List.getLast?_singleton, Option.some.injEq] at hl
          subst hl
          simp [pathAppend, resolve, hn4]
        | cons r rs =>
          simp only [pathAppend, if_pos hl, List.dropLast_cons₂, List.cons_append, resolve,
            if_neg hc]
      · simp only [pathAppend, if_neg hl, List.cons_append, resolve, if_neg hc]

theorem findEntry_of_mem (es : List Entry) (e : Entry) (hn : (es.map Entry.name).Nodup)
    (he : e ∈ es) : findEntry e.name es = some e := by
  induction es with
  | nil => simp at he
  | cons a rest ih =>
    simp only [List.map_cons, List.nodup_cons] at hn
    simp only [findEntry]
    rcases List.mem_cons.1 he with h | h
    · subst h; simp
    · have hne : a.name ≠ e.name := by
        intro heq
        exact hn.1 (by rw [heq]; exact List.mem_map_of_mem _ h)
      rw [if_neg hne]
      exact ih hn.2 h

theorem entryAt_child (root : Entry) (loc : Location) (dn : String) (children : List Entry)
    (e : Entry) (hdir : entryAt root loc = some (.dir dn children))
    (hfind : findEntry e.name children = some e) :
    entryAt root (loc ++ [e.name]) = some e := by
  rw [entryAt_append, hdir]
  simp [entryAt, hfind]

theorem wellFormed_dir {n : String} {children : List Entry}
    (h : (Entry.dir n children).wellFormed = true) :
    (children.map Entry.name).Nodup ∧ (∀ c ∈ children, plainName c.name = true) ∧
      wellFormedList children = true := by
  simp only [Entry.wellFormed, Bool.and_eq_true, decide_eq_true_eq, List.all_eq_true] at h
  exact ⟨h.1.1, h.1.2, h.2⟩

theorem wellFormedList_mem (es : List Entry) (e : Entry) (h : wellFormedList es = true)
    (he : e ∈ es) : e.wellFormed = true := by
  induction es with
  | nil => simp at he
  | cons a rest ih =>
    simp only [wellFormedList, Bool.and_eq_true] at h
    rcases List.mem_cons.1 he with h1 | h1
    · rw [h1]; exact h.1
    · exact ih h.2 h1

/-- The recursive call of the directory overload on the path of a sub-directory
(line 52) scans the entries of that sub-directory. -/
theorem GetFilesDirectory_pathAppend (fs : FileSystem) (Directory : Path) (loc : Location)
    (dn n : String) (siblings children : List Entry) (Extension : String) (recursive : Bool)
    (hres : resolve fs Directory = some loc)
    (hdir : entryAt fs.root loc = some (.dir dn siblings))
    (hfind : findEntry n siblings = some (.dir n children)) (hn : plainName n = true) :
    GetFilesDirectory fs (pathAppend Directory n) Extension recursive =
      some (GetFilesEntries Extension recursive (pathAppend Directory n) children) := by
  have hp := resolve_pathAppend fs Directory loc dn n siblings _ hres hdir hfind hn
  have hc := entryAt_child fs.root loc dn siblings (.dir n children) hdir hfind
  simp only [Entry.name] at hc
  simp [GetFilesDirectory, status, hp, hc]

/-! ## The scan of a directory, path by path and location by location -/

mutual
theorem GetFilesEntry_locations (fs : FileSystem) (Extension : String) (recursive : Bool) :
    ∀ (e : Entry) (Directory : Path) (loc : Location) (dn : String) (siblings : List Entry),
      resolve fs Directory = some loc →
      entryAt fs.root loc = some (.dir dn siblings) →
      findEntry e.name siblings = some e → plainName e.name = true →
      e.wellFormed = true →
      List.Sublist ((GetFilesEntry Extension recursive Directory e).map (resolve fs))
        ((visitEntry recursive loc e).map some)
  | .file n, Directory, loc, dn, siblings, hres, hdir, hfind, hplain, _ => by
    have hp := resolve_pathAppend fs Directory loc dn n siblings _ hres hdir hfind hplain
    simp only [GetFilesEntry, visitEntry]
    split
    · simp [hp]
    · simp
  | .other n, Directory, loc, dn, siblings, hres, hdir, hfind, hplain, _ => by
    have hp := resolve_pathAppend fs Directory loc dn n siblings _ hres hdir hfind hplain
    simp only [GetFilesEntry, visitEntry]
    split
    · simp [hp]
    · simp
  | .dir n children, Directory, loc, dn, siblings, hres, hdir, hfind, hplain, hwf => by
    have hp := resolve_pathAppend fs Directory loc dn n siblings _ hres hdir hfind hplain
    have hchild := entryAt_child fs.root loc dn siblings (.dir n children) hdir hfind
    obtain ⟨hnodup, hnames, hlist⟩ := wellFormed_dir hwf
    have hA : List.Sublist
        ((if extension n = Extension then [pathAppend Directory n] else []).map (resolve fs))
        ([loc ++ [n]].map some) := by
      split
      · simp [hp]
      · simp
    have hB : List.Sublist
        ((if recursive then
            GetFilesEntries Extension recursive (pathAppend Directory n) children
          else []).map (resolve fs))
        ((if recursive then visitEntries recursive (loc ++ [n]) children else []).map some) := by
      split
      · exact GetFilesEntries_locations fs Extension recursive children
          (pathAppend Directory n) (loc ++ [n]) n children hp hchild
          (fun c hc => ⟨findEntry_of_mem children c hnodup hc, hnames c hc⟩) hlist
      · simp
    have h := List.Sublist.append hA hB
    simpa only [GetFilesEntry, visitEntry, List.map_append, List.singleton_append] using h
theorem GetFilesEntries_locations (fs : FileSystem) (Extension : String) (recursive : Bool) :
    ∀ (es : List Entry) (Directory : Path) (loc : Location) (dn : String)
      (siblings : List Entry),
      resolve fs Directory = some loc →
      entryAt fs.root loc = some (.dir dn siblings) →
      (∀ e ∈ es, findEntry e.name siblings = some e ∧ plainName e.name = true) →
      wellFormedList es = true →
      List.Sublist ((GetFilesEntries Extension recursive Directory es).map (resolve fs))
        ((visitEntries recursive loc es).map some)
  | [], _, _, _, _, _, _, _, _ => by simp [GetFilesEntries, visitEntries]
  | e :: rest, Directory, loc, dn, siblings, hres, hdir, hall, hwf => by
    simp only [wellFormedList, Bool.and_eq_true] at hwf
    have h1 := GetFilesEntry_locations fs Extension recursive e Directory loc dn siblings
      hres hdir (hall e (List.mem_cons_self _ _)).1 (hall e (List.mem_cons_self _ _)).2 hwf.1
    have h2 := GetFilesEntries_locations fs Extension recursive rest Directory loc dn siblings
      hres hdir (fun c hc => hall c (List.mem_cons_of_mem _ hc)) hwf.2
    have h := List.Sublist.append h1 h2
    simpa only [GetFilesEntries, visitEntries, List.map_append] using h
end

mutual
theorem visitEntry_shape (recursive : Bool) :
    ∀ (e : Entry) (loc x : Location), x ∈ visitEntry recursive loc e →
      ∃ t, x = loc ++ e.name :: t
  | .file n, loc, x, h => by
    simp only [visitEntry, List.mem_singleton] at h
    exact ⟨[], by simp [h, Entry.name]⟩
  | .other n, loc, x, h => by
    simp only [visitEntry, List.mem_singleton] at h
    exact ⟨[], by simp [h, Entry.name]⟩
  | .dir n children, loc, x, h => by
    simp only [visitEntry, List.mem_cons] at h
    rcases h with h | h
    · exact ⟨[], by simp [h, Entry.name]⟩
    · split at h
      · obtain ⟨c, -, t, ht⟩ := visitEntries_shape recursive children _ x h
        exact ⟨c.name :: t, by simp [ht, Entry.name]⟩
      · simp at h
theorem visitEntries_shape (recursive : Bool) :
    ∀ (es : List Entry) (loc x : Location), x ∈ visitEntries recursive loc es →
      ∃ e ∈ es, ∃ t, x = loc ++ e.name :: t
  | [], loc, x, h => by simp [visitEntries] at h
  | e :: rest, loc, x, h => by
    simp only [visitEntries, List.mem_append] at h
    rcases h with h | h
    · obtain ⟨t, ht⟩ := visitEntry_shape recursive e loc x h
      exact ⟨e, List.mem_cons_self _ _, t, ht⟩
    · obtain ⟨c, hc, t, ht⟩ := visitEntries_shape recursive rest loc x h
      exact ⟨c, List.mem_cons_of_mem _ hc, t, ht⟩
end

mutual
theorem visitEntry_nodup (recursive : Bool) :
    ∀ (e : Entry) (loc : Location), e.wellFormed = true →
      (visitEntry recursive loc e).Nodup
  | .file n, loc, _ => by simp [visitEntry]
  | .other n, loc, _ => by simp [visitEntry]
  | .dir n children, loc, h => by
    obtain ⟨hnodup, -, hlist⟩ := wellFormed_dir h
    simp only [visitEntry, List.nodup_cons]
    refine ⟨?_, ?_⟩
    · intro hx
      split at hx
      · obtain ⟨c, -, t, ht⟩ := visitEntries_shape recursive children _ _ hx
        have := congrArg List.length ht
        simp at this
      · simp at hx
    · split
      · exact visitEntries_nodup recursive children _ hlist hnodup
      · simp
theorem visitEntries_nodup (recursive : Bool) :
    ∀ (es : List Entry) (loc : Location), wellFormedList es = true →
      (es.map Entry.name).Nodup → (visitEntries recursive loc es).Nodup
  | [], loc, _, _ => by simp [visitEntries]
  | e :: rest, loc, h, hn => by
    simp only [wellFormedList, Bool.and_eq_true] at h
    simp only [List.map_cons, List.nodup_cons] at hn
    simp only [visitEntries]
    rw [List.nodup_append]
    refine ⟨visitEntry_nodup recursive e loc h.1,
      visitEntries_nodup recursive rest loc h.2 hn.2, ?_⟩
    intro x hx hx2
    obtain ⟨t, ht⟩ := visitEntry_shape recursive e loc x hx
    obtain ⟨c, hc, t2, ht2⟩ := visitEntries_shape recursive rest loc x hx2
    rw [ht] at ht2
    have h3 := List.append_cancel_left ht2
    simp only [List.cons.injEq] at h3
    exact hn.1 (by rw [h3.1]; exact List.mem_map_of_mem _ hc)
end

/-- C7 at the failing input: the directory D of the working directory holds the
files a.lvl and b.txt, the directory sub.lvl and the directory sub, each of the
two with a file c.lvl in it. Without recursion the directory overload of
`GetFiles` returns a.lvl and the directory sub.lvl; with recursion it returns
a.lvl, the directory sub.lvl, and the two files c.lvl. The path D/sub.lvl is a
directory, not a file. -/
theorem GetFilesDirectory_returns_directory :
    GetFilesDirectory
      ⟨.dir "" [.dir "D" [.file "a.lvl", .file "b.txt", .dir "sub.lvl" [.file "c.lvl"],
        .dir "sub" [.file "c.lvl"]]], []⟩ ["D"] ".lvl" false =
      some [["D", "a.lvl"], ["D", "sub.lvl"]] ∧
    GetFilesDirectory
      ⟨.dir "" [.dir "D" [.file "a.lvl", .file "b.txt", .dir "sub.lvl" [.file "c.lvl"],
        .dir "sub" [.file "c.lvl"]]], []⟩ ["D"] ".lvl" true =
      some [["D", "a.lvl"], ["D", "sub.lvl"], ["D", "sub.lvl", "c.lvl"],
        ["D", "sub", "c.lvl"]] ∧
    (status
      ⟨.dir "" [.dir "D" [.file "a.lvl", .file "b.txt", .dir "sub.lvl" [.file "c.lvl"],
        .dir "sub" [.file "c.lvl"]]], []⟩ ["D", "sub.lvl"]).map Entry.is_regular_file =
      some false ∧
    (status
      ⟨.dir "" [.dir "D" [.file "a.lvl", .file "b.txt", .dir "sub.lvl" [.file "c.lvl"],
        .dir "sub" [.file "c.lvl"]]], []⟩ ["D", "sub.lvl"]).map Entry.is_directory =
      some true := by
  decide

end SWBF2Hierarchy
